import Mathlib

/-!
Verification development for the RAG pipeline of the rag-agent repository.

The repository ships a web front end (document provider, document service
layer) whose source is included, and a RAG backend (chunker, embedding
client, vector index, document registry, retrieval step, agent workflow)
that is described by the specification but whose source is not included.
Definitions for the front-end layer are translated from the TypeScript
source; definitions for the backend pipeline are modelled from the spec,
as marked in their doc comments.
-/

namespace RagAgent

/-! ### Data model (spec section 3) -/

/-- Modelled from the spec: chunk metadata stored alongside each vector in
the Vector Index (document back-reference, provenance for citations, text,
ordinal position). The vector-index source is not included in the repository. -/
structure ChunkMeta where
  document_id : String
  filename : String
  text : String
  position : Nat
deriving DecidableEq, Repr

/-- Modelled from the spec: one entry of the Vector Index, keyed by
chunk_id, holding the embedding vector and the chunk metadata. -/
structure ChunkEntry where
  chunk_id : String
  vector : List ℚ
  metadata : ChunkMeta
deriving DecidableEq, Repr

/-- Modelled from the spec: one ranked search result: chunk id plus
metadata, its similarity score, and the insertion position of the entry in
the index (used for deterministic tie-breaking). -/
structure ScoredResult where
  chunk_id : String
  metadata : ChunkMeta
  score : ℚ
  pos : Nat
deriving DecidableEq, Repr

/-! ### Vector Index: similarity search (spec section 4.4) -/

/-- Modelled from the spec: the similarity metric is cosine similarity over
normalized vectors, which is the dot product of the vectors. -/
def dot : List ℚ → List ℚ → ℚ
  | [], _ => 0
  | _, [] => 0
  | a :: as, b :: bs => a * b + dot as bs

/-- Modelled from the spec: score every index entry against the query
vector, tagging each result with the insertion position of its entry
(positions counted from i). -/
def scoreEntriesFrom (q : List ℚ) : Nat → List ChunkEntry → List ScoredResult
  | _, [] => []
  | i, e :: es =>
    { chunk_id := e.chunk_id, metadata := e.metadata, score := dot q e.vector, pos := i } ::
      scoreEntriesFrom q (i + 1) es

/-- Score all entries of the index against the query vector. -/
def scoreEntries (idx : List ChunkEntry) (q : List ℚ) : List ScoredResult :=
  scoreEntriesFrom q 0 idx

/-- Ranking order of search results: higher score first; on equal scores,
earlier insertion position first (the tie-break rule of the spec). -/
def rankLE (a b : ScoredResult) : Prop :=
  b.score < a.score ∨ (a.score = b.score ∧ a.pos ≤ b.pos)

instance instRankLEDecidable (a b : ScoredResult) : Decidable (rankLE a b) := by
  unfold rankLE
  infer_instance

theorem rankLE_total (a b : ScoredResult) : rankLE a b ∨ rankLE b a := by
  unfold rankLE
  rcases lt_trichotomy a.score b.score with h | h | h
  · exact Or.inr (Or.inl h)
  · rcases Nat.le_total a.pos b.pos with hp | hp
    · exact Or.inl (Or.inr ⟨h, hp⟩)
    · exact Or.inr (Or.inr ⟨h.symm, hp⟩)
  · exact Or.inl (Or.inl h)

theorem rankLE_trans (a b c : ScoredResult) (h1 : rankLE a b) (h2 : rankLE b c) : rankLE a c := by
  unfold rankLE at h1 h2 ⊢
  rcases h1 with h1 | ⟨e1, p1⟩
  · rcases h2 with h2 | ⟨e2, p2⟩
    · exact Or.inl (h2.trans h1)
    · exact Or.inl (by rw [← e2]; exact h1)
  · rcases h2 with h2 | ⟨e2, p2⟩
    · exact Or.inl (by rw [e1]; exact h2)
    · exact Or.inr ⟨e1.trans e2, p1.trans p2⟩

instance : IsTotal ScoredResult rankLE :=
  ⟨rankLE_total⟩

instance : IsTrans ScoredResult rankLE :=
  ⟨rankLE_trans⟩

/-- Modelled from the spec: k-nearest-neighbor search of the Vector Index
combined with the similarity cutoff of the Retrieval Step. Entries are
scored against the query vector, entries scoring below the cutoff are
excluded, survivors are ranked by non-increasing score with ties broken by
insertion order, and the first topK results are returned. The
vector-index source is not included in the repository. -/
def search (idx : List ChunkEntry) (q : List ℚ) (topK : Nat) (cutoff : ℚ) : List ScoredResult :=
  (List.insertionSort rankLE
      ((scoreEntries idx q).filter (fun r => decide (cutoff ≤ r.score)))).take topK

/-- Every result produced by scoring traces back to an index entry: same
chunk id and metadata, score equal to the dot product with the query, and
position at least the starting position. -/
theorem scoreEntriesFrom_mem (q : List ℚ) :
    ∀ (i : Nat) (es : List ChunkEntry), ∀ r ∈ scoreEntriesFrom q i es,
      ∃ e ∈ es, r.chunk_id = e.chunk_id ∧ r.metadata = e.metadata ∧
        r.score = dot q e.vector ∧ i ≤ r.pos := by
  intro i es
  induction es generalizing i with
  | nil => intro r hr; simp [scoreEntriesFrom] at hr
  | cons e es ih =>
    intro r hr
    rw [scoreEntriesFrom, List.mem_cons] at hr
    rcases hr with hr | hr
    · exact ⟨e, List.mem_cons_self e es, by simp [hr]⟩
    · obtain ⟨e2, he2, h1, h2, h3, h4⟩ := ih (i + 1) r hr
      exact ⟨e2, List.mem_cons_of_mem e he2, h1, h2, h3, Nat.le_of_succ_le h4⟩

/-- Scored results carry strictly increasing insertion positions. -/
theorem scoreEntriesFrom_pos_pairwise (q : List ℚ) :
    ∀ (i : Nat) (es : List ChunkEntry),
      List.Pairwise (fun a b : ScoredResult => a.pos < b.pos) (scoreEntriesFrom q i es) := by
  intro i es
  induction es generalizing i with
  | nil => simp [scoreEntriesFrom]
  | cons e es ih =>
    rw [scoreEntriesFrom]
    refine List.Pairwise.cons ?_ (ih (i + 1))
    intro b hb
    obtain ⟨e2, _, _, _, _, h4⟩ := scoreEntriesFrom_mem q (i + 1) es b hb
    exact Nat.lt_of_succ_le h4

theorem scoreEntriesFrom_length (q : List ℚ) :
    ∀ (i : Nat) (es : List ChunkEntry), (scoreEntriesFrom q i es).length = es.length := by
  intro i es
  induction es generalizing i with
  | nil => rfl
  | cons e es ih => rw [scoreEntriesFrom]; simp [ih]

/-- The sorted, cutoff-filtered candidate list underlying a search. -/
def rankedCandidates (idx : List ChunkEntry) (q : List ℚ) (cutoff : ℚ) : List ScoredResult :=
  List.insertionSort rankLE
    ((scoreEntries idx q).filter (fun r => decide (cutoff ≤ r.score)))

theorem search_eq_take (idx : List ChunkEntry) (q : List ℚ) (topK : Nat) (cutoff : ℚ) :
    search idx q topK cutoff = (rankedCandidates idx q cutoff).take topK :=
  rfl

theorem rankedCandidates_length_le (idx : List ChunkEntry) (q : List ℚ) (cutoff : ℚ) :
    (rankedCandidates idx q cutoff).length ≤ idx.length := by
  unfold rankedCandidates
  rw [(List.perm_insertionSort rankLE _).length_eq]
  calc ((scoreEntries idx q).filter (fun r => decide (cutoff ≤ r.score))).length
      ≤ (scoreEntries idx q).length := (List.filter_sublist _).length_le
    _ = idx.length := scoreEntriesFrom_length q 0 idx

theorem rankedCandidates_mem (idx : List ChunkEntry) (q : List ℚ) (cutoff : ℚ)
    (r : ScoredResult) (hr : r ∈ rankedCandidates idx q cutoff) :
    cutoff ≤ r.score ∧ ∃ e ∈ idx, r.chunk_id = e.chunk_id ∧ r.metadata = e.metadata ∧
      r.score = dot q e.vector := by
  unfold rankedCandidates at hr
  rw [(List.perm_insertionSort rankLE _).mem_iff] at hr
  rw [List.mem_filter] at hr
  refine ⟨of_decide_eq_true hr.2, ?_⟩
  obtain ⟨e, he, h1, h2, h3, _⟩ := scoreEntriesFrom_mem q 0 idx r hr.1
  exact ⟨e, he, h1, h2, h3⟩

theorem rankedCandidates_sorted (idx : List ChunkEntry) (q : List ℚ) (cutoff : ℚ) :
    List.Pairwise rankLE (rankedCandidates idx q cutoff) :=
  List.sorted_insertionSort rankLE _

theorem rankedCandidates_pos_ne (idx : List ChunkEntry) (q : List ℚ) (cutoff : ℚ) :
    List.Pairwise (fun a b : ScoredResult => a.pos ≠ b.pos) (rankedCandidates idx q cutoff) := by
  unfold rankedCandidates
  have hbase : List.Pairwise (fun a b : ScoredResult => a.pos ≠ b.pos) (scoreEntries idx q) :=
    (scoreEntriesFrom_pos_pairwise q 0 idx).imp (fun h => Nat.ne_of_lt h)
  have hfilter : List.Pairwise (fun a b : ScoredResult => a.pos ≠ b.pos)
      ((scoreEntries idx q).filter (fun r => decide (cutoff ≤ r.score))) :=
    List.Pairwise.sublist (List.filter_sublist _) hbase
  exact ((List.perm_insertionSort rankLE _).pairwise_iff (fun h => h.symm)).mpr hfilter

/-- C1: for every index state, query vector, and k, search returns at most
k results, ordered by non-increasing similarity score with ties broken by
insertion order; no returned chunk scores below the similarity cutoff; and
a top k exceeding the index size behaves as if clamped to the index size,
the search being a total function that never errors. -/
theorem search_ranked_bounded (idx : List ChunkEntry) (q : List ℚ) (k : Nat) (cutoff : ℚ) :
    (search idx q k cutoff).length ≤ k ∧
    List.Pairwise (fun a b : ScoredResult =>
      b.score < a.score ∨ (a.score = b.score ∧ a.pos < b.pos)) (search idx q k cutoff) ∧
    (∀ r ∈ search idx q k cutoff, cutoff ≤ r.score) ∧
    search idx q k cutoff = search idx q (min k idx.length) cutoff := by
  refine ⟨?_, ?_, ?_, ?_⟩
  · rw [search_eq_take]
    exact List.length_take_le k _
  · rw [search_eq_take]
    refine List.Pairwise.sublist (List.take_sublist k _) ?_
    refine List.Pairwise.imp₂ ?_ (rankedCandidates_sorted idx q cutoff)
      (rankedCandidates_pos_ne idx q cutoff)
    intro a b hrank hne
    rcases hrank with h | ⟨he, hle⟩
    · exact Or.inl h
    · exact Or.inr ⟨he, Nat.lt_of_le_of_ne hle hne⟩
  · intro r hr
    rw [search_eq_take] at hr
    exact (rankedCandidates_mem idx q cutoff r ((List.take_sublist k _).subset hr)).1
  · rw [search_eq_take, search_eq_take]
    have hlen := rankedCandidates_length_le idx q cutoff
    rw [← List.take_take, List.take_of_length_le hlen]

/-- Witness for C1 at a concrete two-entry index, exercising the membership
hypothesis of the cutoff conjunct. -/
theorem search_ranked_bounded_witness :
    0 ≤ ({ chunk_id := "c1", metadata := ⟨"d1", "f1", "t1", 0⟩, score := 0, pos := 0 } :
        ScoredResult).score :=
  (search_ranked_bounded
      [{ chunk_id := "c1", vector := [], metadata := ⟨"d1", "f1", "t1", 0⟩ },
       { chunk_id := "c2", vector := [], metadata := ⟨"d1", "f1", "t2", 1⟩ }]
      [] 2 0).2.2.1
    { chunk_id := "c1", metadata := ⟨"d1", "f1", "t1", 0⟩, score := 0, pos := 0 } (by decide)

/-! ### Vector Index: delete by document (spec section 4.4) -/

/-- Modelled from the spec: delete_by_document removes every chunk of the
given document from the Vector Index and is atomic from the point of view
of the caller: either all chunks of the document are gone, or the
operation reports failure and none are removed. The Boolean parameter
abstracts whether the underlying store accepts the operation; the
vector-index source is not included in the repository. -/
def deleteByDocument (ok : Bool) (docId : String) (idx : List ChunkEntry) :
    Bool × List ChunkEntry :=
  if ok then (true, idx.filter (fun e => decide ¬(e.metadata.document_id = docId)))
  else (false, idx)

/-- C3: delete_by_document is all-or-nothing: on success every chunk of the
document is removed, every chunk of other documents is kept, and a
subsequent search never returns a chunk whose document was deleted; on
failure the operation reports failure and the index is unchanged. -/
theorem deleteByDocument_atomic (docId : String) (idx : List ChunkEntry)
    (q : List ℚ) (k : Nat) (cutoff : ℚ) :
    (deleteByDocument true docId idx).1 = true ∧
    (∀ e ∈ (deleteByDocument true docId idx).2, e.metadata.document_id ≠ docId) ∧
    (∀ e ∈ idx, e.metadata.document_id ≠ docId → e ∈ (deleteByDocument true docId idx).2) ∧
    (∀ r ∈ search (deleteByDocument true docId idx).2 q k cutoff,
      r.metadata.document_id ≠ docId) ∧
    deleteByDocument false docId idx = (false, idx) := by
  refine ⟨rfl, ?_, ?_, ?_, rfl⟩
  · intro e he
    simp only [deleteByDocument, if_pos, List.mem_filter] at he
    exact of_decide_eq_true he.2
  · intro e he hne
    simp only [deleteByDocument, if_pos, List.mem_filter]
    exact ⟨he, decide_eq_true hne⟩
  · intro r hr
    rw [search_eq_take] at hr
    obtain ⟨-, e, he, -, hmeta, -⟩ :=
      rankedCandidates_mem _ q cutoff r ((List.take_sublist k _).subset hr)
    simp only [deleteByDocument, if_pos, List.mem_filter] at he
    rw [hmeta]
    exact of_decide_eq_true he.2

/-- Witness for C3 at a concrete index holding chunks of two documents. -/
theorem deleteByDocument_atomic_witness :
    ({ chunk_id := "c2", vector := [], metadata := ⟨"d2", "f2", "t2", 0⟩ } : ChunkEntry) ∈
      (deleteByDocument true "d1"
        [{ chunk_id := "c1", vector := [], metadata := ⟨"d1", "f1", "t1", 0⟩ },
         { chunk_id := "c2", vector := [], metadata := ⟨"d2", "f2", "t2", 0⟩ }]).2 :=
  (deleteByDocument_atomic "d1"
      [{ chunk_id := "c1", vector := [], metadata := ⟨"d1", "f1", "t1", 0⟩ },
       { chunk_id := "c2", vector := [], metadata := ⟨"d2", "f2", "t2", 0⟩ }]
      [] 1 0).2.2.1
    { chunk_id := "c2", vector := [], metadata := ⟨"d2", "f2", "t2", 0⟩ }
    (by decide) (by decide)

/-! ### Vector Index: upsert (spec section 4.4) -/

/-- Modelled from the spec: upsert stores a vector and metadata under a
chunk id; re-upserting an existing chunk id replaces the prior vector and
metadata in place, otherwise the entry is appended. The vector-index
source is not included in the repository. -/
def upsert (cid : String) (v : List ℚ) (md : ChunkMeta) (idx : List ChunkEntry) :
    List ChunkEntry :=
  if idx.any (fun e => decide (e.chunk_id = cid)) then
    idx.map (fun e => if e.chunk_id = cid then ⟨cid, v, md⟩ else e)
  else idx ++ [⟨cid, v, md⟩]

/-- Upserting twice under the same chunk id equals a single upsert of the
later payload. -/
theorem upsert_upsert (cid : String) (v1 v2 : List ℚ) (md1 md2 : ChunkMeta)
    (idx : List ChunkEntry) :
    upsert cid v2 md2 (upsert cid v1 md1 idx) = upsert cid v2 md2 idx := by
  by_cases hmem : idx.any (fun e => decide (e.chunk_id = cid)) = true
  · obtain ⟨e, he, hpe⟩ := List.any_eq_true.mp hmem
    have he1 : e.chunk_id = cid := of_decide_eq_true hpe
    have h1 : upsert cid v1 md1 idx = idx.map (fun e => if e.chunk_id = cid
        then (⟨cid, v1, md1⟩ : ChunkEntry) else e) := by
      rw [upsert, if_pos hmem]
    have hmem2 : (idx.map (fun e => if e.chunk_id = cid then (⟨cid, v1, md1⟩ : ChunkEntry)
        else e)).any (fun e => decide (e.chunk_id = cid)) = true := by
      refine List.any_eq_true.mpr ⟨⟨cid, v1, md1⟩, ?_, by simp⟩
      exact List.mem_map.mpr ⟨e, he, by rw [if_pos he1]⟩
    rw [h1, upsert, if_pos hmem2, upsert, if_pos hmem, List.map_map]
    refine List.map_congr_left ?_
    intro a _
    by_cases ha : a.chunk_id = cid
    · simp [ha]
    · simp [ha]
  · have hall := List.any_eq_false.mp (Bool.eq_false_iff.mpr hmem)
    have h1 : upsert cid v1 md1 idx = idx ++ [(⟨cid, v1, md1⟩ : ChunkEntry)] := by
      rw [upsert, if_neg hmem]
    have hmem2 : ((idx ++ [(⟨cid, v1, md1⟩ : ChunkEntry)]).any
        (fun e => decide (e.chunk_id = cid))) = true :=
      List.any_eq_true.mpr ⟨⟨cid, v1, md1⟩, by simp, by simp⟩
    rw [h1, upsert, if_pos hmem2, upsert, if_neg hmem, List.map_append]
    have hidx : idx.map (fun e => if e.chunk_id = cid then (⟨cid, v2, md2⟩ : ChunkEntry)
        else e) = idx := by
      refine List.map_congr_left ?_ |>.trans (List.map_id idx)
      intro a ha
      have : ¬(a.chunk_id = cid) := fun h => hall a ha (decide_eq_true h)
      rw [if_neg this]
      rfl
    rw [hidx]
    simp

/-- C4: for every chunk id, vectors, and metadata, if the index holds at
most one entry for that chunk id (the invariant every reachable index
satisfies), upserting the id twice leaves exactly one entry for the id,
that entry carries the vector and metadata of the later upsert, and the
double upsert equals a single upsert of the later payload. -/
theorem upsert_idempotent (cid : String) (v1 v2 : List ℚ) (md1 md2 : ChunkMeta)
    (idx : List ChunkEntry)
    (h : idx.countP (fun e => decide (e.chunk_id = cid)) ≤ 1) :
    upsert cid v2 md2 (upsert cid v1 md1 idx) = upsert cid v2 md2 idx ∧
    (upsert cid v2 md2 (upsert cid v1 md1 idx)).countP
      (fun e => decide (e.chunk_id = cid)) = 1 ∧
    (∀ e ∈ upsert cid v2 md2 (upsert cid v1 md1 idx),
      e.chunk_id = cid → e = ⟨cid, v2, md2⟩) := by
  rw [upsert_upsert]
  refine ⟨rfl, ?_, ?_⟩
  · by_cases hmem : idx.any (fun e => decide (e.chunk_id = cid)) = true
    · obtain ⟨e, he, hpe⟩ := List.any_eq_true.mp hmem
      have hpos : 0 < idx.countP (fun e => decide (e.chunk_id = cid)) :=
        List.countP_pos_iff.mpr ⟨e, he, hpe⟩
      have hone : idx.countP (fun e => decide (e.chunk_id = cid)) = 1 := by omega
      rw [upsert, if_pos hmem, List.countP_map]
      calc idx.countP ((fun e => decide (e.chunk_id = cid)) ∘
            (fun e => if e.chunk_id = cid then (⟨cid, v2, md2⟩ : ChunkEntry) else e))
          = idx.countP (fun e => decide (e.chunk_id = cid)) := by
            refine List.countP_congr ?_
            intro a _
            by_cases ha : a.chunk_id = cid
            · simp [ha]
            · simp [ha]
        _ = 1 := hone
    · have hall := List.any_eq_false.mp (Bool.eq_false_iff.mpr hmem)
      have hzero : idx.countP (fun e => decide (e.chunk_id = cid)) = 0 :=
        List.countP_eq_zero.mpr (fun a ha => by
          intro hpa
          exact hall a ha hpa)
      rw [upsert, if_neg hmem, List.countP_append, hzero]
      simp
  · intro e he hcid
    by_cases hmem : idx.any (fun x => decide (x.chunk_id = cid)) = true
    · rw [upsert, if_pos hmem] at he
      obtain ⟨a, _, ha⟩ := List.mem_map.mp he
      by_cases hac : a.chunk_id = cid
      · rw [if_pos hac] at ha
        exact ha.symm
      · rw [if_neg hac] at ha
        exact absurd (ha ▸ hcid) hac
    · rw [upsert, if_neg hmem, List.mem_append] at he
      rcases he with he | he
      · have hall := List.any_eq_false.mp (Bool.eq_false_iff.mpr hmem)
        exact absurd (decide_eq_true hcid) (hall e he)
      · simpa using he

/-- Witness for C4: double upsert on a one-entry index at a concrete input. -/
theorem upsert_idempotent_witness :
    (upsert "c1" [3] ⟨"d1", "f1", "t2", 0⟩ (upsert "c1" [2] ⟨"d1", "f1", "t1", 0⟩
        [{ chunk_id := "c1", vector := [1], metadata := ⟨"d1", "f1", "t0", 0⟩ }])).countP
      (fun e => decide (e.chunk_id = "c1")) = 1 :=
  (upsert_idempotent "c1" [2] [3] ⟨"d1", "f1", "t1", 0⟩ ⟨"d1", "f1", "t2", 0⟩
      [{ chunk_id := "c1", vector := [1], metadata := ⟨"d1", "f1", "t0", 0⟩ }]
      (by decide)).2.1

/-! ### Chunker (spec section 4.2) -/

/-- Modelled from the spec: configuration errors of the chunker. -/
inductive ChunkError
  | InvalidChunkConfig
deriving DecidableEq, Repr

/-- Modelled from the spec: emit the chunk of up to m characters starting
at position start; while more than one chunk of text remains, advance by
m - ov so that the last ov characters of each emitted chunk reopen the
next one. The chunker source is not included in the repository. -/
def splitAux (text : List Char) (m ov : Nat) (start : Nat) : List (List Char) :=
  if text.length ≤ start + m then [(text.drop start).take m]
  else if _hov : ov < m then
    (text.drop start).take m :: splitAux text m ov (start + (m - ov))
  else [(text.drop start).take m]
termination_by text.length - start
decreasing_by omega

/-- Modelled from the spec: split text into overlapping chunks of at most
m characters with overlap ov; the precondition ov < m is checked first and
violated configurations fail with InvalidChunkConfig. -/
def split (text : List Char) (m ov : Nat) : Except ChunkError (List (List Char)) :=
  if ov < m then Except.ok (splitAux text m ov 0)
  else Except.error ChunkError.InvalidChunkConfig

theorem splitAux_ne_nil (text : List Char) (m ov start : Nat) :
    splitAux text m ov start ≠ [] := by
  rw [splitAux]
  split
  · simp
  · split
    · simp
    · simp

theorem splitAux_head (text : List Char) (m ov start : Nat) :
    ∃ t, splitAux text m ov start = ((text.drop start).take m) :: t := by
  rw [splitAux]
  split
  · exact ⟨[], rfl⟩
  · split
    · exact ⟨_, rfl⟩
    · exact ⟨[], rfl⟩

theorem splitAux_mem_shape (text : List Char) (m ov : Nat) :
    ∀ (n start : Nat), text.length - start ≤ n →
      ∀ c ∈ splitAux text m ov start, ∃ s, c = (text.drop s).take m := by
  intro n
  induction n with
  | zero =>
    intro start h c hc
    rw [splitAux] at hc
    split at hc
    · simp only [List.mem_singleton] at hc
      exact ⟨start, hc⟩
    · omega
  | succ n ih =>
    intro start h c hc
    rw [splitAux] at hc
    split at hc
    · simp only [List.mem_singleton] at hc
      exact ⟨start, hc⟩
    · rename_i hlt
      split at hc
      · rename_i hov
        rw [List.mem_cons] at hc
        rcases hc with hc | hc
        · exact ⟨start, hc⟩
        · exact ih (start + (m - ov)) (by omega) c hc
      · simp only [List.mem_singleton] at hc
        exact ⟨start, hc⟩

/-- The overlap relation between consecutive chunks: the next chunk opens
with the last ov characters of the previous chunk. -/
def overlapRel (ov : Nat) (a b : List Char) : Prop :=
  b.take ov = a.drop (a.length - ov)

theorem splitAux_chain (text : List Char) (m ov : Nat) (hov : ov < m) :
    ∀ (n start : Nat), text.length - start ≤ n →
      List.Chain' (overlapRel ov) (splitAux text m ov start) := by
  intro n
  induction n with
  | zero =>
    intro start h
    by_cases hend : text.length ≤ start + m
    · rw [splitAux, if_pos hend]
      exact List.chain'_singleton _
    · omega
  | succ n ih =>
    intro start h
    by_cases hend : text.length ≤ start + m
    · rw [splitAux, if_pos hend]
      exact List.chain'_singleton _
    · rw [splitAux, if_neg hend, dif_pos hov]
      have hlt : start + m < text.length := by omega
      obtain ⟨t, ht⟩ := splitAux_head text m ov (start + (m - ov))
      rw [ht]
      refine List.chain'_cons.mpr ⟨?_, ht ▸ ih (start + (m - ov)) (by omega)⟩
      unfold overlapRel
      have hfull : ((text.drop start).take m).length = m := by
        rw [List.length_take, List.length_drop]
        omega
      rw [hfull, List.take_take, Nat.min_eq_left (Nat.le_of_lt hov), List.drop_take,
        List.drop_drop, Nat.sub_sub_self (Nat.le_of_lt hov)]

/-- C5: for every non-empty text and parameters with ov < m, split
succeeds with a non-empty chunk sequence, every chunk has at most m
characters, and every chunk after the first opens with the last ov
characters of the previous chunk. -/
theorem split_spec (text : List Char) (m ov : Nat) (hov : ov < m) (_hne : text ≠ []) :
    ∃ cs, split text m ov = Except.ok cs ∧ cs ≠ [] ∧
      (∀ c ∈ cs, c.length ≤ m) ∧ List.Chain' (overlapRel ov) cs := by
  refine ⟨splitAux text m ov 0, ?_, splitAux_ne_nil text m ov 0, ?_, ?_⟩
  · rw [split, if_pos hov]
  · intro c hc
    obtain ⟨s, hs⟩ := splitAux_mem_shape text m ov (text.length) 0 (by omega) c hc
    rw [hs]
    exact List.length_take_le m _
  · exact splitAux_chain text m ov hov (text.length) 0 (by omega)

/-- Witness for C5 on a concrete five-character text with m = 3, ov = 1. -/
theorem split_spec_witness :
    ∃ cs, split ['a', 'b', 'c', 'd', 'e'] 3 1 = Except.ok cs ∧ cs ≠ [] ∧
      (∀ ch ∈ cs, ch.length ≤ 3) ∧ List.Chain' (overlapRel 1) cs :=
  split_spec ['a', 'b', 'c', 'd', 'e'] 3 1 (by decide) (by decide)

/-- C6: chunking is deterministic: any two calls of split on the same
text and parameters produce identical outputs. -/
theorem split_deterministic (text : List Char) (m ov : Nat)
    (r1 r2 : Except ChunkError (List (List Char)))
    (h1 : r1 = split text m ov) (h2 : r2 = split text m ov) : r1 = r2 :=
  h1.trans h2.symm

/-- Witness for C6: two calls of split on a concrete text coincide. -/
theorem split_deterministic_witness :
    split ['a', 'b'] 2 1 = split ['a', 'b'] 2 1 :=
  split_deterministic ['a', 'b'] 2 1 (split ['a', 'b'] 2 1) (split ['a', 'b'] 2 1) rfl rfl

/-! ### Agent Workflow state machine (spec section 4.7) -/

/-- Modelled from the spec: the workflow stage in which an unrecoverable
failure occurred, reported to the caller on the Errored state. -/
inductive Stage
  | retrieving
  | augmenting
  | generating
deriving DecidableEq, Repr

/-- Modelled from the spec: the states of the Agent Workflow state
machine. The workflow source is not included in the repository. -/
inductive WorkflowState
  | idle
  | retrieving (message : String)
  | augmenting (message : String) (context : List ScoredResult)
  | generating (message : String) (prompt : String)
  | completed
  | errored (failed : Stage)
deriving DecidableEq, Repr

/-- Modelled from the spec: the Retrieval Step embeds the query (the
embedding call may fail upstream) and then searches the Vector Index with
the similarity cutoff; an empty result list is an ok outcome, distinct
from a retrieval-service failure. -/
def retrieve (embedded : Except Unit (List ℚ)) (idx : List ChunkEntry) (topK : Nat)
    (cutoff : ℚ) : Except Unit (List ScoredResult) :=
  match embedded with
  | Except.error e => Except.error e
  | Except.ok qv => Except.ok (search idx qv topK cutoff)

/-- Modelled from the spec: source citations carried by a response:
filename and chunk position of each retrieved chunk. -/
def citations (ctx : List ScoredResult) : List (String × Nat) :=
  ctx.map (fun r => (r.metadata.filename, r.metadata.position))

/-- Modelled from the spec: the transition out of Retrieving: an obtained
context, possibly empty, moves the workflow to Augmenting; a retrieval
failure moves it to Errored naming the failed stage. -/
def stepRetrieving (message : String) (result : Except Unit (List ScoredResult)) :
    WorkflowState :=
  match result with
  | Except.ok ctx => WorkflowState.augmenting message ctx
  | Except.error _ => WorkflowState.errored Stage.retrieving

/-- When no indexed chunk passes the cutoff, the ranked candidate list is
empty, hence so is the search result. -/
theorem search_eq_nil_of_below_cutoff (idx : List ChunkEntry) (qv : List ℚ) (k : Nat)
    (cutoff : ℚ) (h : ∀ e ∈ idx, dot qv e.vector < cutoff) :
    search idx qv k cutoff = [] := by
  rw [search_eq_take]
  have hnil : rankedCandidates idx qv cutoff = [] := by
    unfold rankedCandidates
    have : (scoreEntries idx qv).filter (fun r => decide (cutoff ≤ r.score)) = [] := by
      rw [List.filter_eq_nil_iff]
      intro r hr
      obtain ⟨e, he, -, -, hscore, -⟩ := scoreEntriesFrom_mem qv 0 idx r hr
      simp only [decide_eq_true_eq]
      rw [hscore]
      exact not_le_of_lt (h e he)
    rw [this]
    rfl
  rw [hnil]
  exact List.take_nil

/-- C7: when retrieval succeeds but no indexed chunk passes the similarity
cutoff (in particular over any index whose entries all score below the
cutoff, including the empty one), the workflow moves from Retrieving to
Augmenting with an empty context and no citations, does not enter Errored,
and the ok-empty outcome is distinguishable from a retrieval failure. -/
theorem empty_retrieval_reaches_augmenting (idx : List ChunkEntry) (qv : List ℚ) (k : Nat)
    (cutoff : ℚ) (message : String)
    (h : ∀ e ∈ idx, dot qv e.vector < cutoff) :
    retrieve (Except.ok qv) idx k cutoff = Except.ok [] ∧
    stepRetrieving message (retrieve (Except.ok qv) idx k cutoff) =
      WorkflowState.augmenting message [] ∧
    citations [] = [] ∧
    (∀ s, stepRetrieving message (retrieve (Except.ok qv) idx k cutoff) ≠
      WorkflowState.errored s) ∧
    (∀ e, retrieve (Except.ok qv) idx k cutoff ≠ Except.error e) := by
  have hok : retrieve (Except.ok qv) idx k cutoff = Except.ok [] := by
    have hs := search_eq_nil_of_below_cutoff idx qv k cutoff h
    simp [retrieve, hs]
  refine ⟨hok, ?_, rfl, ?_, ?_⟩
  · rw [hok]
    rfl
  · intro s
    rw [hok]
    simp [stepRetrieving]
  · intro e
    rw [hok]
    simp

/-- Witness for C7: a query over the empty index proceeds to Augmenting. -/
theorem empty_retrieval_reaches_augmenting_witness :
    stepRetrieving "hello" (retrieve (Except.ok []) [] 4 0) =
      WorkflowState.augmenting "hello" [] :=
  (empty_retrieval_reaches_augmenting [] [] 4 0 "hello" (by simp)).2.1

/-- Modelled from the spec: one committed turn of a conversation. -/
structure Turn where
  message : String
  contextUsed : List ScoredResult
  response : String
deriving DecidableEq, Repr

/-- Modelled from the spec: run one turn of the Agent Workflow over the
conversation turn log. The retrieval outcome and the augmentation and
generation calls are passed as arguments; on an unrecoverable failure at
any stage the turn is not committed and the failed stage is reported, on
success the full turn is appended to the log. The workflow source is not
included in the repository. -/
def processTurn (conv : List Turn) (message : String)
    (retrieval : Except Unit (List ScoredResult))
    (augment : List ScoredResult → Except Unit String)
    (generate : String → Except Unit String) :
    List Turn × Except Stage String :=
  match retrieval with
  | Except.error _ => (conv, Except.error Stage.retrieving)
  | Except.ok ctx =>
    match augment ctx with
    | Except.error _ => (conv, Except.error Stage.augmenting)
    | Except.ok prompt =>
      match generate prompt with
      | Except.error _ => (conv, Except.error Stage.generating)
      | Except.ok response =>
        (conv ++ [{ message := message, contextUsed := ctx, response := response }],
          Except.ok response)

/-- C8: whenever a turn ends in Errored, the turn log is unchanged (the
partial turn is not committed and prior history is preserved) and the
reported stage names the step that failed; committed history is in any
case a prefix of the resulting log. -/
theorem errored_turn_not_committed (conv : List Turn) (message : String)
    (retrieval : Except Unit (List ScoredResult))
    (augment : List ScoredResult → Except Unit String)
    (generate : String → Except Unit String) :
    (∀ s, (processTurn conv message retrieval augment generate).2 = Except.error s →
      (processTurn conv message retrieval augment generate).1 = conv) ∧
    (∃ extra, (processTurn conv message retrieval augment generate).1 = conv ++ extra) ∧
    (∀ e, retrieval = Except.error e →
      processTurn conv message retrieval augment generate =
        (conv, Except.error Stage.retrieving)) ∧
    (∀ ctx e, retrieval = Except.ok ctx → augment ctx = Except.error e →
      processTurn conv message retrieval augment generate =
        (conv, Except.error Stage.augmenting)) ∧
    (∀ ctx prompt e, retrieval = Except.ok ctx → augment ctx = Except.ok prompt →
      generate prompt = Except.error e →
      processTurn conv message retrieval augment generate =
        (conv, Except.error Stage.generating)) := by
  refine ⟨?_, ?_, ?_, ?_, ?_⟩
  · intro s hs
    rcases retrieval with e | ctx
    · rfl
    · rcases haug : augment ctx with e | prompt
      · simp [processTurn, haug]
      · rcases hgen : generate prompt with e | response
        · simp [processTurn, haug, hgen]
        · simp [processTurn, haug, hgen] at hs
  · rcases retrieval with e | ctx
    · exact ⟨[], by simp [processTurn]⟩
    · rcases haug : augment ctx with e | prompt
      · exact ⟨[], by simp [processTurn, haug]⟩
      · rcases hgen : generate prompt with e | response
        · exact ⟨[], by simp [processTurn, haug, hgen]⟩
        · exact ⟨[{ message := message, contextUsed := ctx, response := response }],
            by simp [processTurn, haug, hgen]⟩
  · intro e he
    rw [he]
    rfl
  · intro ctx e hr ha
    rw [hr]
    simp [processTurn, ha]
  · intro ctx prompt e hr ha hg
    rw [hr]
    simp [processTurn, ha, hg]

/-- Witness for C8: a concrete turn whose generation call fails leaves a
one-turn history untouched and reports the generating stage. -/
theorem errored_turn_not_committed_witness :
    processTurn [{ message := "m0", contextUsed := [], response := "r0" }] "m1"
      (Except.ok []) (fun _ => Except.ok "prompt") (fun _ => Except.error ()) =
      ([{ message := "m0", contextUsed := [], response := "r0" }],
        Except.error Stage.generating) :=
  (errored_turn_not_committed [{ message := "m0", contextUsed := [], response := "r0" }] "m1"
      (Except.ok []) (fun _ => Except.ok "prompt") (fun _ => Except.error ())).2.2.2.2
    [] "prompt" () rfl rfl rfl

/-! ### Front-end document service and provider (translated from the
TypeScript source: src/lib/document-service.ts and the documents
provider) -/

/-- The DocumentInfo interface of src/lib/document-service.ts: the record
shape of a backend document, used both as the result type of
uploadDocument and as the entry type of listDocuments. -/
structure DocumentInfo where
  document_id : String
  filename : String
  chunks : Nat
  status : String
deriving DecidableEq, Repr

/-- The field names of the DocumentInfo interface, in declaration order. -/
def documentInfoFields : List String :=
  ["document_id", "filename", "chunks", "status"]

/-- Field names of the ingest success output: uploadDocument is declared
to return a DocumentInfo. -/
def uploadDocumentSuccessFields : List String :=
  documentInfoFields

/-- Field names of each entry of the list-documents output: listDocuments
is declared to return a sequence of DocumentInfo. -/
def listDocumentsEntryFields : List String :=
  documentInfoFields

/-- An HTTP response as seen by the service layer: status flag, parsed
body on success, and the optional detail field of the error body. -/
structure HttpResponse (α : Type) where
  ok : Bool
  body : α
  errorDetail : Option String
deriving DecidableEq, Repr

/-- uploadDocument of src/lib/document-service.ts: posts the file and
returns the parsed DocumentInfo, or throws the error detail (with a
default message) when the response is not ok. -/
def uploadDocument (resp : HttpResponse DocumentInfo) : Except String DocumentInfo :=
  if resp.ok then Except.ok resp.body
  else Except.error (resp.errorDetail.getD "Failed to upload document")

/-- deleteDocument of src/lib/document-service.ts: issues the delete and
returns unit, or throws the error detail when the response is not ok. -/
def deleteDocument (resp : HttpResponse Unit) : Except String Unit :=
  if resp.ok then Except.ok ()
  else Except.error (resp.errorDetail.getD "Failed to delete document")

/-- listDocuments of src/lib/document-service.ts: fetches the document
list, or throws the error detail when the response is not ok. -/
def listDocuments (resp : HttpResponse (List DocumentInfo)) :
    Except String (List DocumentInfo) :=
  if resp.ok then Except.ok resp.body
  else Except.error (resp.errorDetail.getD "Failed to list documents")

/-- refreshDocuments of the documents provider: replaces the documents
state with the fetched list; a fetch failure is caught inside the
function (logged and toasted) and leaves the documents state unchanged.
The returned value is the new documents state. -/
def refreshDocuments (resp : HttpResponse (List DocumentInfo))
    (docs : List DocumentInfo) : List DocumentInfo :=
  match listDocuments resp with
  | Except.ok newDocs => newDocs
  | Except.error _ => docs

/-- uploadFile of the documents provider: awaits uploadDocument inside a
try block, then awaits refreshDocuments (which never rejects) and returns
the upload result; any error thrown by the upload call is caught and
undefined is returned. The pair is the returned value and the documents
state after the call. -/
def uploadFile (uploadResp : HttpResponse DocumentInfo)
    (listResp : HttpResponse (List DocumentInfo)) (docs : List DocumentInfo) :
    Option DocumentInfo × List DocumentInfo :=
  match uploadDocument uploadResp with
  | Except.error _ => (none, docs)
  | Except.ok info => (some info, refreshDocuments listResp docs)

/-- deleteFile of the documents provider: awaits deleteDocument inside a
try block, on success filters the deleted document id out of the
documents state and returns true; any thrown error is caught and false is
returned with the state unchanged. -/
def deleteFile (deleteResp : HttpResponse Unit) (documentId : String)
    (docs : List DocumentInfo) : Bool × List DocumentInfo :=
  match deleteDocument deleteResp with
  | Except.ok _ => (true, docs.filter (fun d => decide ¬(d.document_id = documentId)))
  | Except.error _ => (false, docs)

/-- C2 counterexample: the claim says the ingest success output has
exactly the fields document_id, filename, chunk_count, status, but
uploadDocument is declared to return DocumentInfo, whose third field is
chunks, not chunk_count. -/
theorem ingest_fields_counterexample :
    ¬(uploadDocumentSuccessFields = ["document_id", "filename", "chunk_count", "status"] ∧
      listDocumentsEntryFields = ["document_id", "filename", "chunks", "status"]) := by
  decide

/-- C2 (amended): the ingest success output and each entry of the
list-documents output are records with exactly the fields document_id,
filename, chunks, status (the same DocumentInfo shape for both), and on
an ok response uploadDocument returns the parsed DocumentInfo body. -/
theorem ingest_and_list_fields :
    uploadDocumentSuccessFields = ["document_id", "filename", "chunks", "status"] ∧
    listDocumentsEntryFields = ["document_id", "filename", "chunks", "status"] ∧
    uploadDocumentSuccessFields = listDocumentsEntryFields ∧
    (∀ resp : HttpResponse DocumentInfo, resp.ok = true →
      uploadDocument resp = Except.ok resp.body) := by
  refine ⟨rfl, rfl, rfl, ?_⟩
  intro resp hok
  rw [uploadDocument, if_pos hok]

/-- Witness for C2 (amended) on a concrete ok upload response. -/
theorem ingest_and_list_fields_witness :
    uploadDocument ⟨true, ⟨"doc-1", "a.txt", 2, "ready"⟩, none⟩ =
      Except.ok ⟨"doc-1", "a.txt", 2, "ready"⟩ :=
  ingest_and_list_fields.2.2.2 ⟨true, ⟨"doc-1", "a.txt", 2, "ready"⟩, none⟩ rfl

/-- C9: if the backend delete call fails, deleteFile returns false and
the documents list is unchanged; if it succeeds, deleteFile returns true
and the new list is exactly the old one with every entry of the deleted
document id removed: no surviving entry carries the id, every other entry
is kept, and the result is a sublist of the original (original order). -/
theorem deleteFile_frame (documentId : String) (docs : List DocumentInfo)
    (failResp okResp : HttpResponse Unit)
    (hfail : failResp.ok = false) (hok : okResp.ok = true) :
    deleteFile failResp documentId docs = (false, docs) ∧
    (deleteFile okResp documentId docs).1 = true ∧
    (deleteFile okResp documentId docs).2 =
      docs.filter (fun d => decide ¬(d.document_id = documentId)) ∧
    (∀ d ∈ (deleteFile okResp documentId docs).2, d.document_id ≠ documentId) ∧
    (∀ d ∈ docs, d.document_id ≠ documentId → d ∈ (deleteFile okResp documentId docs).2) ∧
    List.Sublist (deleteFile okResp documentId docs).2 docs := by
  have hdel : deleteDocument okResp = Except.ok () := by
    rw [deleteDocument, if_pos hok]
  have hdelf : deleteDocument failResp =
      Except.error (failResp.errorDetail.getD "Failed to delete document") := by
    rw [deleteDocument, if_neg (by rw [hfail]; exact Bool.false_ne_true)]
  have hsucc : deleteFile okResp documentId docs =
      (true, docs.filter (fun d => decide ¬(d.document_id = documentId))) := by
    rw [deleteFile, hdel]
  refine ⟨by rw [deleteFile, hdelf], by rw [hsucc], by rw [hsucc], ?_, ?_, ?_⟩
  · intro d hd
    rw [hsucc] at hd
    exact of_decide_eq_true (List.mem_filter.mp hd).2
  · intro d hd hne
    rw [hsucc]
    exact List.mem_filter.mpr ⟨hd, decide_eq_true hne⟩
  · rw [hsucc]
    exact List.filter_sublist docs

/-- Witness for C9 on a concrete two-document list. -/
theorem deleteFile_frame_witness :
    deleteFile ⟨false, (), some "boom"⟩ "doc-1"
        [⟨"doc-1", "a.txt", 2, "ready"⟩, ⟨"doc-2", "b.txt", 3, "ready"⟩] =
      (false, [⟨"doc-1", "a.txt", 2, "ready"⟩, ⟨"doc-2", "b.txt", 3, "ready"⟩]) ∧
    (⟨"doc-2", "b.txt", 3, "ready"⟩ : DocumentInfo) ∈
      (deleteFile ⟨true, (), none⟩ "doc-1"
        [⟨"doc-1", "a.txt", 2, "ready"⟩, ⟨"doc-2", "b.txt", 3, "ready"⟩]).2 :=
  ⟨(deleteFile_frame "doc-1" [⟨"doc-1", "a.txt", 2, "ready"⟩, ⟨"doc-2", "b.txt", 3, "ready"⟩]
      ⟨false, (), some "boom"⟩ ⟨true, (), none⟩ rfl rfl).1,
    (deleteFile_frame "doc-1" [⟨"doc-1", "a.txt", 2, "ready"⟩, ⟨"doc-2", "b.txt", 3, "ready"⟩]
      ⟨false, (), some "boom"⟩ ⟨true, (), none⟩ rfl rfl).2.2.2.2.1
      ⟨"doc-2", "b.txt", 3, "ready"⟩ (by decide) (by decide)⟩

/-- C10 counterexample: the claim says uploadFile returns undefined on
any failure, the failures being errors of the upload call or of the
subsequent refresh of the document list; but when the upload call
succeeds and only the refresh fails, the refresh error is swallowed
inside refreshDocuments and uploadFile still returns the DocumentInfo,
not undefined. -/
theorem uploadFile_refresh_failure_counterexample :
    (uploadFile ⟨true, ⟨"doc-1", "a.txt", 2, "ready"⟩, none⟩ ⟨false, [], some "boom"⟩ []).1 =
      some ⟨"doc-1", "a.txt", 2, "ready"⟩ ∧
    listDocuments ⟨false, [], some "boom"⟩ = Except.error "boom" ∧
    some (⟨"doc-1", "a.txt", 2, "ready"⟩ : DocumentInfo) ≠ none := by
  refine ⟨rfl, rfl, ?_⟩
  simp

/-- C10 (amended): uploadFile is a total function (it never throws: upload
errors are caught by its own try block and refresh errors inside
refreshDocuments); it returns the DocumentInfo exactly when the upload
call succeeds and undefined exactly when the upload call fails, and a
failed refresh only leaves the documents state unchanged. -/
theorem uploadFile_spec (uploadResp : HttpResponse DocumentInfo)
    (listResp : HttpResponse (List DocumentInfo)) (docs : List DocumentInfo) :
    (uploadResp.ok = true →
      uploadFile uploadResp listResp docs = (some uploadResp.body, refreshDocuments listResp docs)) ∧
    (uploadResp.ok = false → uploadFile uploadResp listResp docs = (none, docs)) ∧
    (uploadResp.ok = true → listResp.ok = false →
      uploadFile uploadResp listResp docs = (some uploadResp.body, docs)) := by
  have hup : uploadResp.ok = true →
      uploadDocument uploadResp = Except.ok uploadResp.body := by
    intro h
    rw [uploadDocument, if_pos h]
  refine ⟨?_, ?_, ?_⟩
  · intro h
    rw [uploadFile, hup h]
  · intro h
    rw [uploadFile, uploadDocument, if_neg (by rw [h]; exact Bool.false_ne_true)]
  · intro h hl
    rw [uploadFile, hup h, refreshDocuments, listDocuments,
      if_neg (by rw [hl]; exact Bool.false_ne_true)]

/-- Witness for C10 (amended): concrete successful upload with failed
refresh returns the document and leaves the list unchanged. -/
theorem uploadFile_spec_witness :
    uploadFile ⟨true, ⟨"doc-1", "a.txt", 2, "ready"⟩, none⟩ ⟨false, [], some "boom"⟩
        [⟨"doc-0", "z.txt", 1, "ready"⟩] =
      (some ⟨"doc-1", "a.txt", 2, "ready"⟩, [⟨"doc-0", "z.txt", 1, "ready"⟩]) :=
  (uploadFile_spec ⟨true, ⟨"doc-1", "a.txt", 2, "ready"⟩, none⟩ ⟨false, [], some "boom"⟩
      [⟨"doc-0", "z.txt", 1, "ready"⟩]).2.2 rfl rfl

end RagAgent
